import Mathlib

/-!
Verification of the nradix radix tree (IP longest-prefix-match container).

The embedding models the pointer-based Go implementation as an arena of
nodes indexed by natural numbers: `Tree.nodes` is the slab, a node handle
is an index into it, and `none` plays the role of a nil pointer.  All
operations (`insert6`, `insert4`, `deleteIPv6`, `deleteIPv4`,
`find6WithNode`, `find32WithNode`, `setupIPv4Root`, the walker and the
free-list allocator `newnode`) are translated loop-by-loop from the source.
Loops that walk the bits of a key are bounded by the key length and are
written as recursion on the count of remaining bits; the upward trim loop
of delete, which climbs parent links, takes fuel `nodes.length + 1`, enough
for any chain of distinct nodes.  The nil-pointer dereference that the Go
code performs when the trim loop starts at a parentless node is made
explicit as the `DelErr.panicNilParent` outcome.
-/

set_option autoImplicit false
set_option maxRecDepth 1000000
set_option maxHeartbeats 2000000

namespace NRadix

/-- One bit of a byte string, MSB first within each byte: position `p` is
bit `0x80 >>> (p % 8)` of byte `p / 8`, exactly the cursor the Go code
drives with `i` and `bit`.  Out-of-range bytes read as 0 (the Go code never
reads past the end for the inputs its callers produce). -/
def bitAt (bs : List Nat) (p : Nat) : Bool :=
  Nat.testBit (bs.getD (p / 8) 0) (7 - p % 8)

/-- A trie node: child links, parent back-link, optional payload and the
`prefix` metadata the Go code attaches.  `none` models a nil pointer /
absent value. -/
structure Node (α : Type) where
  left : Option Nat := none
  right : Option Nat := none
  parent : Option Nat := none
  value : Option α := none
  pfx : Option (List Nat × List Nat) := none
  deriving DecidableEq, Repr

/-- The tree: the node arena, the root handle, the cached IPv4 shortcut
handle `rootV4` and the free-list head.  The free list is threaded through
the `right` field of harvested nodes, as in the source. -/
structure Tree (α : Type) where
  nodes : List (Node α)
  root : Nat
  rootV4 : Option Nat
  free : Option Nat
  deriving DecidableEq, Repr

variable {α : Type}

/-- Dereference a node handle (reads of indices outside the arena yield an
all-clear node; well-formed states never do that). -/
def Tree.node (s : Tree α) (n : Nat) : Node α :=
  s.nodes.getD n {}

/-- Update the node at handle `n` in place. -/
def Tree.setNode (s : Tree α) (n : Nat) (f : Node α → Node α) : Tree α :=
  { s with nodes := s.nodes.set n (f (s.node n)) }

/-- `newnode`: pop the free list if non-empty (clearing all links and the
value, setting the prefix metadata), otherwise extend the slab with a
zeroed node.  The Go slab grows in chunks (200, 600, 1400, …); chunk
geometry does not affect behaviour, so the model appends to one arena. -/
def Tree.newnode (s : Tree α) (key mask : List Nat) : Tree α × Nat :=
  match s.free with
  | some p =>
      ({ s with free := (s.node p).right,
                nodes := s.nodes.set p { pfx := some (key, mask) } }, p)
  | none => ({ s with nodes := s.nodes ++ [{}] }, s.nodes.length)

/-- The IPv4-mapped spine key `::ffff:0:0` (bytes 10 and 11 are 0xff). -/
def v4KeyBytes : List Nat := [0, 0, 0, 0, 0, 0, 0, 0, 0, 0, 255, 255, 0, 0, 0, 0]

/-- The descent loop of `setupIPv4Root`: walk the first 96 bits of the
IPv4-mapped key from the root, creating missing nodes.  `fuel` counts the
remaining bits (initially 96), `p` the current bit position. -/
def setupLoop (ipv6 : List Nat) : Tree α → Nat → Nat → Nat → Tree α × Nat
  | s, node, _, 0 => (s, node)
  | s, node, p, fuel + 1 =>
      match (if bitAt ipv6 p then (s.node node).right else (s.node node).left) with
      | some nx => setupLoop ipv6 s nx (p + 1) fuel
      | none =>
          let t := s.newnode ipv6 (List.replicate 4 0)
          let s2 := t.1.setNode t.2 fun nd => { nd with parent := some node }
          let s3 := s2.setNode node fun nd =>
            if bitAt ipv6 p then { nd with right := some t.2 } else { nd with left := some t.2 }
          setupLoop ipv6 s3 t.2 (p + 1) fuel

/-- `setupIPv4Root`: walk/create the 96-bit IPv4-mapped spine and cache its
end node as `rootV4`.  (The Go call `net.CIDRMask(0, 32)` passed to
`newnode` is four zero bytes.) -/
def Tree.setupIPv4Root (s : Tree α) : Tree α :=
  let t := setupLoop v4KeyBytes s s.root 0 96
  { t.1 with rootV4 := some t.2 }

/-- `NewTree(0)`: a fresh tree whose root is allocated first (handle 0) and
whose IPv4 spine is built eagerly.  (`net.IPv6zero` and
`net.CIDRMask(0, 128)` are sixteen zero bytes each.) -/
def newTree : Tree α :=
  let s0 : Tree α := { nodes := [], root := 0, rootV4 := none, free := none }
  let t := s0.newnode (List.replicate 16 0) (List.replicate 16 0)
  Tree.setupIPv4Root { t.1 with root := t.2 }

/-- Errors of insert. -/
inductive Err where
  | badIP
  | nodeBusy
  deriving DecidableEq, Repr

/-- Phase one of `insert6`: follow existing child links while the mask bit
is set.  Returns the last node reached, the bit position, and whether the
walk stopped because a child was missing (Go's `next == nil`). -/
def insertWalk (s : Tree α) (key mask : List Nat) : Nat → Nat → Nat → Nat × Nat × Bool
  | node, p, 0 => (node, p, false)
  | node, p, fuel + 1 =>
      if bitAt mask p then
        match (if bitAt key p then (s.node node).right else (s.node node).left) with
        | none => (node, p, true)
        | some nx => insertWalk s key mask nx (p + 1) fuel
      else (node, p, false)

/-- Phase two of `insert6`: create fresh nodes along the remaining masked
bits, linking each to its parent on the side given by the key bit.
Returns the final state and the terminal node. -/
def insertCreate (key mask : List Nat) : Tree α → Nat → Nat → Nat → Tree α × Nat
  | s, node, _, 0 => (s, node)
  | s, node, p, fuel + 1 =>
      if bitAt mask p then
        let t := s.newnode key mask
        let s2 := t.1.setNode t.2 fun nd => { nd with parent := some node }
        let s3 := s2.setNode node fun nd =>
          if bitAt key p then { nd with right := some t.2 } else { nd with left := some t.2 }
        insertCreate key mask s3 t.2 (p + 1) fuel
      else (s, node)

/-- `insert6`: length check, descent, then either set the value at the
target (`NodeBusy` when occupied and overwrite is off) or extend the trie.
On an error the tree is returned unchanged, as in the source. -/
def Tree.insert6 (s : Tree α) (key mask : List Nat) (value : Option α)
    (overwrite : Bool) : Tree α × Option Err :=
  if key.length ≠ mask.length then (s, some Err.badIP)
  else
    let w := insertWalk s key mask s.root 0 (8 * key.length)
    if w.2.2 then
      let c := insertCreate key mask s w.1 w.2.1 (8 * key.length - w.2.1)
      (c.1.setNode c.2 (fun nd => { nd with value := value, pfx := some (key, mask) }), none)
    else
      if (s.node w.1).value.isSome && !overwrite then (s, some Err.nodeBusy)
      else (s.setNode w.1 (fun nd => { nd with value := value, pfx := some (key, mask) }), none)

/-- The 16-byte IPv4-mapped form of a 32-bit key, `::ffff:k0k1:k2k3`,
exactly as `insert4`, `deleteIPv4` and the `find32WithNode` fallback build
it. -/
def mapKey4 (key : Nat) : List Nat :=
  [0, 0, 0, 0, 0, 0, 0, 0, 0, 0, 255, 255,
   (key >>> 24) % 256, (key >>> 16) % 256, (key >>> 8) % 256, key % 256]

/-- The 16-byte mask for an IPv4 query: twelve 0xff bytes then the four
bytes of the 32-bit mask. -/
def mapMask4 (mask : Nat) : List Nat :=
  [255, 255, 255, 255, 255, 255, 255, 255, 255, 255, 255, 255,
   (mask >>> 24) % 256, (mask >>> 16) % 256, (mask >>> 8) % 256, mask % 256]

/-- `insert4`: project the IPv4 key/mask into the 128-bit space and defer
to `insert6`. -/
def Tree.insert4 (s : Tree α) (key mask : Nat) (value : Option α)
    (overwrite : Bool) : Tree α × Option Err :=
  s.insert6 (mapKey4 key) (mapMask4 mask) value overwrite

/-- Outcomes of delete.  `panicNilParent` is the nil dereference the Go
trim loop performs when the node it is about to detach has no parent;
`fuelOut` is the model's fuel guard for the parent climb (never reached
from a well-formed state, where parent chains are finite and duplicate
free). -/
inductive DelErr where
  | badIP
  | notFound
  | panicNilParent
  | fuelOut
  deriving DecidableEq, Repr

/-- The descent loop of `deleteIPv6`: step through child links (possibly
through nil) while the mask bit is set. -/
def deleteWalk (s : Tree α) (key mask : List Nat) : Option Nat → Nat → Nat → Option Nat
  | node, _, 0 => node
  | none, _, _ + 1 => none
  | some n, p, fuel + 1 =>
      if bitAt mask p then
        deleteWalk s key mask
          (if bitAt key p then (s.node n).right else (s.node n).left) (p + 1) fuel
      else some n

/-- The upward trim loop of delete: detach `node` from its parent, push it
on the free list, then continue with the parent while it has no children,
no value, and a parent of its own.  The parent dereference happens before
any root check, as in the source. -/
def trimLoop : Tree α → Nat → Nat → Tree α × Option DelErr
  | s, _, 0 => (s, some DelErr.fuelOut)
  | s, node, fuel + 1 =>
      match (s.node node).parent with
      | none => (s, some DelErr.panicNilParent)
      | some par =>
          let s1 := if (s.node par).right = some node
            then s.setNode par fun nd => { nd with right := none }
            else s.setNode par fun nd => { nd with left := none }
          let s2 := { s1.setNode node (fun nd => { nd with right := s1.free }) with
                      free := some node }
          if (s2.node par).right.isSome || (s2.node par).left.isSome
              || (s2.node par).value.isSome then (s2, none)
          else if (s2.node par).parent = none then (s2, none)
          else trimLoop s2 par fuel

/-- `deleteIPv6`: length check, strict descent (`NotFound` if it runs off),
then either clear the value of an internal node (point delete) or trim the
leaf/subtree and purge empty ancestors. -/
def Tree.deleteIPv6 (s : Tree α) (key mask : List Nat) (wholeRange : Bool) :
    Tree α × Option DelErr :=
  if key.length ≠ mask.length then (s, some DelErr.badIP)
  else
    match deleteWalk s key mask (some s.root) 0 (8 * key.length) with
    | none => (s, some DelErr.notFound)
    | some node =>
        if !wholeRange && ((s.node node).right.isSome || (s.node node).left.isSome) then
          if (s.node node).value.isSome then
            (s.setNode node (fun nd => { nd with value := none }), none)
          else (s, some DelErr.notFound)
        else trimLoop s node (s.nodes.length + 1)

/-- `deleteIPv4`: project and defer to `deleteIPv6`. -/
def Tree.deleteIPv4 (s : Tree α) (key mask : Nat) (wholeRange : Bool) :
    Tree α × Option DelErr :=
  s.deleteIPv6 (mapKey4 key) (mapMask4 mask) wholeRange

/-- The `interface{}` result slot of find: empty, a stored value, or the
`ErrBadIP` sentinel that `find6WithNode` returns in the value position on a
length mismatch. -/
inductive RVal (α : Type) where
  | noval
  | val (a : α)
  | badIP
  deriving DecidableEq, Repr

/-- A node's value as find reports it. -/
def rvalOf : Option α → RVal α
  | none => RVal.noval
  | some a => RVal.val a

/-- The descent loop of `find6WithNode`.  At each node: record its value if
set, step to the child in the key-bit direction, stop if the mask bit is
clear; at the very bottom of the tree (bit position `len8`) fold in the
final node's value unconditionally — even when that value is unset — as the
source does. -/
def find6Loop (s : Tree α) (key mask : List Nat) (len8 : Nat) :
    Option Nat → Nat → Nat → Nat × RVal α → Nat × RVal α
  | none, _, _, best => best
  | some n, p, fuel, best =>
      let best1 := if (s.node n).value.isSome then (n, rvalOf (s.node n).value) else best
      let next := if bitAt key p then (s.node n).right else (s.node n).left
      if !bitAt mask p then best1
      else if p + 1 = len8 then
        match next with
        | some m => (m, rvalOf (s.node m).value)
        | none => best1
      else
        match fuel with
        | 0 => best1
        | fuel + 1 => find6Loop s key mask len8 next (p + 1) fuel best1

/-- `find6WithNode`: on a length mismatch the pair `(root, ErrBadIP)` comes
back (the error rides in the value slot); otherwise run the descent from
the root. -/
def Tree.find6WithNode (s : Tree α) (key mask : List Nat) : Nat × RVal α :=
  if key.length ≠ mask.length then (s.root, RVal.badIP)
  else find6Loop s key mask (8 * key.length) (some s.root) 0 (8 * key.length)
    (s.root, RVal.noval)

/-- `find6` keeps only the value. -/
def Tree.find6 (s : Tree α) (key mask : List Nat) : RVal α :=
  (s.find6WithNode key mask).2

/-- The shortcut loop of `find32WithNode`, over the 32 bits of an IPv4
key/mask.  `fuel` is the exponent of the current bit plus one (32 at the
start, so the bit examined is `2 ^ fuel` after the pattern match).  The
mask bit is checked before stepping; a value found after stepping updates
the best pair. -/
def find32Loop (s : Tree α) (ipv4 mask : Nat) : Option Nat → Nat → Nat × RVal α → Nat × RVal α
  | none, _, best => best
  | some _, 0, best => best
  | some n, fuel + 1, best =>
      if !Nat.testBit mask fuel then best
      else
        let next := if Nat.testBit ipv4 fuel then (s.node n).right else (s.node n).left
        let best1 := match next with
          | some m => if (s.node m).value.isSome then (m, rvalOf (s.node m).value) else best
          | none => best
        find32Loop s ipv4 mask next fuel best1

/-- `find32WithNode`: when the IPv4 shortcut handle is cached, start there,
seeding the result with the shortcut node itself and its value; otherwise
fall back to the IPv4-mapped 128-bit descent from the true root. -/
def Tree.find32WithNode (s : Tree α) (ipv4 mask : Nat) : Nat × RVal α :=
  match s.rootV4 with
  | some r => find32Loop s ipv4 mask (some r) 32 (r, rvalOf (s.node r).value)
  | none => s.find6WithNode (mapKey4 ipv4) (mapMask4 mask)

/-- `find32` keeps only the value. -/
def Tree.find32 (s : Tree α) (ipv4 mask : Nat) : RVal α :=
  (s.find32WithNode ipv4 mask).2

/-- The fallback branch of `find32WithNode` on its own (the IPv4-mapped
descent from the true root), for comparison with the shortcut branch. -/
def Tree.find32Fallback (s : Tree α) (ipv4 mask : Nat) : Nat × RVal α :=
  s.find6WithNode (mapKey4 ipv4) (mapMask4 mask)

/-- `getIPv6Mask` from the mask cache: `ones/8` 0xff bytes, then a partial
byte `^(0xff >>> (ones % 8))` when `ones` is not a multiple of 8, then
zeros. -/
def getIPv6Mask (ones : Nat) : List Nat :=
  (List.range 16).map fun i =>
    if i < ones / 8 then 255
    else if i = ones / 8 && ones % 8 > 0 then 256 - 2 ^ (8 - ones % 8)
    else 0

/-- `ipv4MaskCache`: the 32-bit mask with `i` leading ones,
`0xffffffff << (32 - i)` truncated to 32 bits. -/
def ipv4MaskCache (i : Nat) : Nat :=
  (0xffffffff <<< (32 - i)) % 2 ^ 32

/-- The recursive walker of `WalkV4`/`WalkV6`, collecting `(path, value)`
pairs instead of invoking a callback (the claims concern a callback that
never errors, for which the two are the same).  Fuel plays the role of
`maxDepth - depth`: at fuel 0 (depth 128) a value is still reported but no
child is entered.  The node's value is processed before the left and right
subtrees, exactly as in the source. -/
def walkAux (s : Tree α) : Nat → Nat → List Bool → List (List Bool × α)
  | 0, n, path =>
      match (s.node n).value with
      | some v => [(path, v)]
      | none => []
  | fuel + 1, n, path =>
      (match (s.node n).value with
       | some v => [(path, v)]
       | none => [])
      ++ (match (s.node n).left with
          | some l => walkAux s fuel l (path ++ [false])
          | none => [])
      ++ (match (s.node n).right with
          | some r => walkAux s fuel r (path ++ [true])
          | none => [])

/-- The full walk from the root (both wrappers start it at depth 0 with a
zero address). -/
def Tree.walkList (s : Tree α) : List (List Bool × α) :=
  walkAux s 128 s.root []

/-- Byte `i` of the address the walker synthesizes from a descent path
(path bits MSB-first, padded with zeros). -/
def byteOfBits (path : List Bool) (i : Nat) : Nat :=
  (List.range 8).foldl (fun acc j => acc + (if path.getD (8 * i + j) false then 2 ^ (7 - j) else 0)) 0

/-- `netip.Addr.Is4In6` on the synthesized address: bytes 0–9 zero and
bytes 10–11 equal to 0xff. -/
def is4in6 (path : List Bool) : Bool :=
  ((List.range 10).all fun i => byteOfBits path i == 0)
    && byteOfBits path 10 == 255 && byteOfBits path 11 == 255

/-- `WalkV4`: report only IPv4-mapped prefixes, with the first 96 bits
stripped and the depth remapped by subtracting 96.  (A 16-byte
`netip.Addr` never satisfies `Is4()`, so the wrapper's second branch is
dead.) -/
def Tree.walkV4 (s : Tree α) : List (List Bool × α) :=
  s.walkList.filterMap fun pv => if is4in6 pv.1 then some (pv.1.drop 96, pv.2) else none

/-- `WalkV6`: report the prefixes that are not IPv4-mapped.  (A 16-byte
`netip.Addr` always satisfies `Is6()`.) -/
def Tree.walkV6 (s : Tree α) : List (List Bool × α) :=
  s.walkList.filter fun pv => !is4in6 pv.1

/-! ### Paths: the bridge between handles and bit strings

A node of the trie is identified by the bit path that reaches it from the
root (`false` = left, `true` = right).  These definitions are the
specification glue used to state the claims; they do not translate source
code. -/

/-- One child step. -/
def childStep (s : Tree α) (n : Nat) (b : Bool) : Option Nat :=
  if b then (s.node n).right else (s.node n).left

/-- Follow a bit path from a given node. -/
def nodeAtFrom (s : Tree α) : Nat → List Bool → Option Nat
  | n, [] => some n
  | n, b :: bs =>
      match childStep s n b with
      | none => none
      | some m => nodeAtFrom s m bs

/-- The node at a bit path from the root. -/
def Tree.nodeAt (s : Tree α) (path : List Bool) : Option Nat :=
  nodeAtFrom s s.root path

/-- The stored value at a bit path (none when the node is missing or
holds no value). -/
def Tree.valAt (s : Tree α) (path : List Bool) : Option α :=
  (s.nodeAt path).bind fun n => (s.node n).value

/-- A handle is reachable when some path leads to it. -/
def Tree.reach (s : Tree α) (n : Nat) : Prop :=
  ∃ path, s.nodeAt path = some n

/-- The first `d` bits of a key. -/
def bitsOf (key : List Nat) (d : Nat) : List Bool :=
  (List.range d).map (bitAt key)

/-- The 96-bit path of the IPv4-mapped spine: eighty 0 bits then sixteen
1 bits. -/
def spineBits : List Bool :=
  List.replicate 80 false ++ List.replicate 16 true

/-- Walk the free list (threaded through `right`) with fuel; `none` when
the fuel runs out before the chain ends. -/
def chainFrom (s : Tree α) : Option Nat → Nat → Option (List Nat)
  | none, _ => some []
  | some _, 0 => none
  | some f, fuel + 1 => (chainFrom s (s.node f).right fuel).map (f :: ·)

/-- The free list as a list of handles (fuel `nodes.length + 1`, enough
for any duplicate-free chain). -/
def Tree.freeChain (s : Tree α) : Option (List Nat) :=
  chainFrom s s.free (s.nodes.length + 1)

/-- The free list relation: `FreeList s h L` says the chain starting at
head `h` consists exactly of the handles `L`. -/
inductive FreeList (s : Tree α) : Option Nat → List Nat → Prop where
  | nil : FreeList s none []
  | cons (f : Nat) (L : List Nat) (h : FreeList s (s.node f).right L) :
      FreeList s (some f) (f :: L)

/-- Well-formedness of a tree state: what actually holds of every state the
public API can produce before the spine-teardown bug strikes, and what the
universally quantified claims presuppose of "a tree".  It says the
reachable part of the arena is a tree (paths identify nodes uniquely),
parent links are correct along it, reachable handles are in bounds, and
the free list is a duplicate-free chain of unreachable in-bounds handles. -/
structure Wf (s : Tree α) : Prop where
  parentRoot : (s.node s.root).parent = none
  parentOk : ∀ {n b m}, s.reach n → childStep s n b = some m → (s.node m).parent = some n
  inj : ∀ {p q n}, s.nodeAt p = some n → s.nodeAt q = some n → p = q
  sizeOk : ∀ {n}, s.reach n → n < s.nodes.length
  freeOk : ∃ L, FreeList s s.free L ∧ L.Nodup ∧
    ∀ f ∈ L, ¬s.reach f ∧ f < s.nodes.length

/-- The longest-prefix-match specification: the deepest `j ≤ d` such that
the map `S` holds a value at the first `j` bits of `key`. -/
def lpmQ (S : List Bool → Option α) (key : List Nat) : Nat → Option α
  | 0 => S []
  | d + 1 => (S (bitsOf key (d + 1))).orElse fun _ => lpmQ S key d

/-- The deepest stored value between depths `p` and `d` along `key`'s
path, preferring deeper matches (used to state the find loop invariant). -/
def lpmFrom (s : Tree α) (key : List Nat) (d p : Nat) : Option α :=
  if p > d then none
  else (lpmFrom s key d (p + 1)).orElse fun _ => s.valAt (bitsOf key p)
termination_by d + 1 - p

/-- An insert request: key bytes, prefix length, value, overwrite flag. -/
structure InsOp (α : Type) where
  key : List Nat
  len : Nat
  val : α
  ow : Bool

/-- Run a list of inserts from a state, failing if any one fails (the
"sequence of successful inserts" of the LPM claim). -/
def insertSeq : Tree α → List (InsOp α) → Option (Tree α)
  | s, [] => some s
  | s, op :: ops =>
      match s.insert6 op.key (getIPv6Mask op.len) (some op.val) op.ow with
      | (s', none) => insertSeq s' ops
      | (_, some _) => none

/-- The map of stored prefixes an insert sequence produces: later
successful inserts overwrite earlier ones at the same path. -/
def storedOf : List (InsOp α) → (List Bool → Option α) → (List Bool → Option α)
  | [], S => S
  | op :: ops, S =>
      storedOf ops fun path =>
        if path = bitsOf op.key op.len then some op.val else S path

/-! ### Basic lemmas about paths, node access and masks -/

theorem bitsOf_zero (key : List Nat) : bitsOf key 0 = [] := rfl

theorem bitsOf_succ (key : List Nat) (d : Nat) :
    bitsOf key (d + 1) = bitsOf key d ++ [bitAt key d] := by
  simp [bitsOf, List.range_succ]

theorem bitsOf_length (key : List Nat) (d : Nat) : (bitsOf key d).length = d := by
  simp [bitsOf]

theorem bitsOf_mono (key : List Nat) {c d : Nat} (h : c ≤ d) :
    bitsOf key c <+: bitsOf key d := by
  induction d, h using Nat.le_induction with
  | base => exact List.prefix_rfl
  | succ d hcd ih => rw [bitsOf_succ]; exact ih.trans (List.prefix_append _ _)

theorem nodeAtFrom_append (s : Tree α) (n : Nat) (p q : List Bool) :
    nodeAtFrom s n (p ++ q) = (nodeAtFrom s n p).bind fun m => nodeAtFrom s m q := by
  induction p generalizing n with
  | nil => simp [nodeAtFrom]
  | cons b bs ih =>
      simp only [List.cons_append, nodeAtFrom]
      cases childStep s n b with
      | none => simp
      | some m => simp [ih]

theorem nodeAt_append (s : Tree α) (p q : List Bool) :
    s.nodeAt (p ++ q) = (s.nodeAt p).bind fun m => nodeAtFrom s m q :=
  nodeAtFrom_append s s.root p q

theorem nodeAtFrom_singleton (s : Tree α) (n : Nat) (b : Bool) :
    nodeAtFrom s n [b] = childStep s n b := by
  cases h : childStep s n b <;> simp [nodeAtFrom, h]

theorem nodeAt_snoc (s : Tree α) (p : List Bool) (b : Bool) :
    s.nodeAt (p ++ [b]) = (s.nodeAt p).bind fun m => childStep s m b := by
  rw [nodeAt_append]
  simp only [nodeAtFrom_singleton]

theorem nodeAt_some_of_append {s : Tree α} {p q : List Bool} {n : Nat}
    (h : s.nodeAt (p ++ q) = some n) : ∃ m, s.nodeAt p = some m := by
  rw [nodeAt_append] at h
  cases hm : s.nodeAt p with
  | none => rw [hm] at h; simp at h
  | some m => exact ⟨m, rfl⟩

theorem nodeAt_some_mono {s : Tree α} {p q : List Bool} {n : Nat}
    (hpq : p <+: q) (h : s.nodeAt q = some n) : ∃ m, s.nodeAt p = some m := by
  obtain ⟨r, rfl⟩ := hpq
  exact nodeAt_some_of_append h

theorem nodeAt_none_mono {s : Tree α} {p q : List Bool}
    (hpq : p <+: q) (h : s.nodeAt p = none) : s.nodeAt q = none := by
  obtain ⟨r, rfl⟩ := hpq
  rw [nodeAt_append, h]
  rfl

theorem setNode_root (s : Tree α) (n : Nat) (f : Node α → Node α) :
    (s.setNode n f).root = s.root := rfl

theorem setNode_rootV4 (s : Tree α) (n : Nat) (f : Node α → Node α) :
    (s.setNode n f).rootV4 = s.rootV4 := rfl

theorem setNode_free (s : Tree α) (n : Nat) (f : Node α → Node α) :
    (s.setNode n f).free = s.free := rfl

theorem setNode_length (s : Tree α) (n : Nat) (f : Node α → Node α) :
    (s.setNode n f).nodes.length = s.nodes.length := by
  simp [Tree.setNode]

theorem node_setNode_ne (s : Tree α) {n m : Nat} (f : Node α → Node α) (h : m ≠ n) :
    (s.setNode n f).node m = s.node m := by
  simp [Tree.setNode, Tree.node, List.getD_eq_getElem?_getD, List.getElem?_set_ne (Ne.symm h)]

theorem node_setNode_self (s : Tree α) {n : Nat} (f : Node α → Node α)
    (h : n < s.nodes.length) : (s.setNode n f).node n = f (s.node n) := by
  simp [Tree.setNode, Tree.node, List.getD_eq_getElem?_getD, List.getElem?_set_self h]

theorem node_oob (s : Tree α) {n : Nat} (h : s.nodes.length ≤ n) : s.node n = {} := by
  simp [Tree.node, List.getD_eq_getElem?_getD, List.getElem?_eq_none h]

theorem getD_range_map (f : Nat → Nat) (n i dflt : Nat) :
    ((List.range n).map f).getD i dflt = if i < n then f i else dflt := by
  by_cases h : i < n
  · simp [List.getD_eq_getElem?_getD, List.getElem?_map, List.getElem?_range h, h]
  · simp only [List.getD_eq_getElem?_getD, if_neg h]
    rw [List.getElem?_eq_none]
    · rfl
    · simpa using Nat.le_of_not_lt h

theorem bitAt_getIPv6Mask {d p : Nat} (hd : d ≤ 128) (hp : p < 128) :
    bitAt (getIPv6Mask d) p = decide (p < d) := by
  have hm8 : p % 8 < 8 := Nat.mod_lt _ (by omega)
  have hdm : 8 * (d / 8) + d % 8 = d := by omega
  have hpm : 8 * (p / 8) + p % 8 = p := by omega
  rw [bitAt, getIPv6Mask, getD_range_map]
  rw [if_pos (by omega : p / 8 < 16)]
  by_cases h1 : p / 8 < d / 8
  · rw [if_pos h1]
    have h255 : (255 : Nat) = 2 ^ 8 - 1 := rfl
    rw [h255, Nat.testBit_two_pow_sub_one]
    simp only [decide_eq_decide]
    omega
  · rw [if_neg h1]
    by_cases h2 : p / 8 = d / 8 ∧ d % 8 > 0
    · rw [if_pos (by simp [h2.1, h2.2])]
      have hsplit : 256 - 2 ^ (8 - d % 8) = (2 ^ (d % 8) - 1) <<< (8 - d % 8) := by
        have h8 : d % 8 + (8 - d % 8) = 8 := by omega
        rw [Nat.shiftLeft_eq, Nat.sub_mul, one_mul, ← Nat.pow_add, h8]
      rw [hsplit, Nat.testBit_shiftLeft, Nat.testBit_two_pow_sub_one]
      by_cases hge : 7 - p % 8 ≥ 8 - d % 8
      · rw [decide_eq_true hge, Bool.true_and]
        simp only [decide_eq_decide]
        omega
      · rw [decide_eq_false hge, Bool.false_and]
        symm
        rw [decide_eq_false_iff_not]
        omega
    · rw [if_neg (by
        intro hcontra
        simp only [Bool.and_eq_true, decide_eq_true_eq] at hcontra
        exact h2 ⟨hcontra.1, hcontra.2⟩)]
      rw [Nat.zero_testBit]
      symm
      rw [decide_eq_false_iff_not]
      omega

theorem length_getIPv6Mask (d : Nat) : (getIPv6Mask d).length = 16 := by
  simp [getIPv6Mask]

theorem childStep_eq (s : Tree α) (n : Nat) (b : Bool) :
    (if b then (s.node n).right else (s.node n).left) = childStep s n b := rfl

/-! ### Characterization of the descent loops by paths -/

theorem insertWalk_full {s : Tree α} {key mask : List Nat} {d len8 : Nat}
    (hmask : ∀ p, p < len8 → bitAt mask p = decide (p < d)) (hd : d ≤ len8)
    {t : Nat} (ht : s.nodeAt (bitsOf key d) = some t) :
    insertWalk s key mask s.root 0 len8 = (t, d, false) := by
  suffices h : ∀ k j n, k = d - j → j ≤ d → s.nodeAt (bitsOf key j) = some n →
      insertWalk s key mask n j (len8 - j) = (t, d, false) by
    have h0 := h d 0 s.root (by omega) (by omega) rfl
    simpa using h0
  intro k
  induction k with
  | zero =>
      intro j n hk hj hn
      have hjd : j = d := by omega
      subst hjd
      rw [hn] at ht
      cases ht
      rcases Nat.eq_or_lt_of_le hd with heq | hlt
      · rw [← heq, Nat.sub_self]
        rfl
      · have hfuel : len8 - j = (len8 - j - 1) + 1 := by omega
        rw [hfuel, insertWalk, hmask j hlt]
        simp
  | succ k ih =>
      intro j n hk hj hn
      have hjlt : j < d := by omega
      obtain ⟨n', hn'⟩ :=
        nodeAt_some_mono (bitsOf_mono key (by omega : j + 1 ≤ d)) ht
      have hcs : childStep s n (bitAt key j) = some n' := by
        have hs := nodeAt_snoc s (bitsOf key j) (bitAt key j)
        rw [← bitsOf_succ, hn', hn] at hs
        exact hs.symm
      have hfuel : len8 - j = (len8 - (j + 1)) + 1 := by omega
      rw [hfuel, insertWalk, hmask j (by omega), childStep_eq, hcs]
      simp only [decide_eq_true_eq, if_pos hjlt]
      exact ih (j + 1) n' (by omega) (by omega) hn'

theorem insertWalk_stops {s : Tree α} {key mask : List Nat} {d len8 : Nat}
    (hmask : ∀ p, p < len8 → bitAt mask p = decide (p < d)) (hd : d ≤ len8)
    {m nm : Nat} (hnm : s.nodeAt (bitsOf key m) = some nm)
    (hcs : childStep s nm (bitAt key m) = none) (hm : m < d) :
    insertWalk s key mask s.root 0 len8 = (nm, m, true) := by
  suffices h : ∀ k j n, k = m - j → j ≤ m → s.nodeAt (bitsOf key j) = some n →
      insertWalk s key mask n j (len8 - j) = (nm, m, true) by
    simpa using h m 0 s.root (by omega) (by omega) rfl
  intro k
  induction k with
  | zero =>
      intro j n hk hj hn
      have hjm : j = m := by omega
      subst hjm
      rw [hn] at hnm
      cases hnm
      have hfuel : len8 - j = (len8 - j - 1) + 1 := by omega
      rw [hfuel, insertWalk, hmask j (by omega), childStep_eq, hcs]
      simp [hm]
  | succ k ih =>
      intro j n hk hj hn
      have hjlt : j < m := by omega
      obtain ⟨n', hn'⟩ :=
        nodeAt_some_mono (bitsOf_mono key (by omega : j + 1 ≤ m)) hnm
      have hcs' : childStep s n (bitAt key j) = some n' := by
        have hs := nodeAt_snoc s (bitsOf key j) (bitAt key j)
        rw [← bitsOf_succ, hn', hn] at hs
        exact hs.symm
      have hfuel : len8 - j = (len8 - (j + 1)) + 1 := by omega
      rw [hfuel, insertWalk, hmask j (by omega), childStep_eq, hcs']
      simp only [decide_eq_true_eq, if_pos (by omega : j < d)]
      exact ih (j + 1) n' (by omega) (by omega) hn'

theorem deleteWalk_eq {s : Tree α} {key mask : List Nat} {d len8 : Nat}
    (hmask : ∀ p, p < len8 → bitAt mask p = decide (p < d)) (hd : d ≤ len8) :
    deleteWalk s key mask (some s.root) 0 len8 = s.nodeAt (bitsOf key d) := by
  suffices h : ∀ k j n, k = d - j → j ≤ d → s.nodeAt (bitsOf key j) = some n →
      deleteWalk s key mask (some n) j (len8 - j) = s.nodeAt (bitsOf key d) by
    simpa using h d 0 s.root (by omega) (by omega) rfl
  intro k
  induction k with
  | zero =>
      intro j n hk hj hn
      have hjd : j = d := by omega
      subst hjd
      rcases Nat.eq_or_lt_of_le hd with heq | hlt
      · rw [← heq, Nat.sub_self, deleteWalk, hn]
      · have hfuel : len8 - j = (len8 - j - 1) + 1 := by omega
        rw [hfuel, deleteWalk, hmask j hlt, hn]
        simp
  | succ k ih =>
      intro j n hk hj hn
      have hjlt : j < d := by omega
      have hfuel : len8 - j = (len8 - (j + 1)) + 1 := by omega
      have hsnoc := nodeAt_snoc s (bitsOf key j) (bitAt key j)
      rw [← bitsOf_succ, hn] at hsnoc
      rw [hfuel, deleteWalk, hmask j (by omega)]
      simp only [decide_eq_true_eq, if_pos hjlt, childStep_eq]
      have hsnoc' : s.nodeAt (bitsOf key (j + 1)) = childStep s n (bitAt key j) := hsnoc
      cases hcs : childStep s n (bitAt key j) with
      | none =>
          rw [hcs] at hsnoc'
          have hnone : s.nodeAt (bitsOf key d) = none :=
            nodeAt_none_mono (bitsOf_mono key (by omega : j + 1 ≤ d)) hsnoc'
          rw [hnone]
          cases (len8 - (j + 1)) <;> rfl
      | some n' =>
          rw [hcs] at hsnoc'
          exact ih (j + 1) n' (by omega) (by omega) hsnoc'

theorem lpmFrom_gt {s : Tree α} {key : List Nat} {d p : Nat} (h : d < p) :
    lpmFrom s key d p = none := by
  rw [lpmFrom]
  simp [h]

theorem lpmFrom_step {s : Tree α} {key : List Nat} {d p : Nat} (h : p ≤ d) :
    lpmFrom s key d p
      = (lpmFrom s key d (p + 1)).orElse fun _ => s.valAt (bitsOf key p) := by
  rw [lpmFrom]
  simp [Nat.not_lt.mpr h]

theorem lpmFrom_none_of_nodeAt_none {s : Tree α} {key : List Nat} {d p : Nat}
    (h : s.nodeAt (bitsOf key p) = none) : lpmFrom s key d p = none := by
  by_cases hpd : d < p
  · exact lpmFrom_gt hpd
  · have hrec : lpmFrom s key d (p + 1) = none := by
      have h' : s.nodeAt (bitsOf key (p + 1)) = none :=
        nodeAt_none_mono (bitsOf_mono key (by omega)) h
      exact lpmFrom_none_of_nodeAt_none h'
    rw [lpmFrom_step (by omega), hrec]
    simp [Tree.valAt, h, Option.orElse]
termination_by d + 1 - p

theorem find6Loop_val_lt {s : Tree α} {key mask : List Nat} {d len8 : Nat}
    (hmask : ∀ p, p < len8 → bitAt mask p = decide (p < d)) (hd : d < len8) :
    ∀ k j nopt best, k = d - j → j ≤ d → nopt = s.nodeAt (bitsOf key j) →
      (find6Loop s key mask len8 nopt j (len8 - j) best).2
        = match lpmFrom s key d j with
          | some v => RVal.val v
          | none => best.2 := by
  intro k
  induction k with
  | zero =>
      intro j nopt best hk hj hnopt
      have hjd : j = d := by omega
      subst hjd
      cases hnop : nopt with
      | none =>
          rw [hnop] at hnopt
          rw [lpmFrom_none_of_nodeAt_none hnopt.symm]
          cases (len8 - j) <;> rfl
      | some n =>
          rw [hnop] at hnopt
          have hfuel : len8 - j = (len8 - j - 1) + 1 := by omega
          have hmj : bitAt mask j = false := by rw [hmask j (by omega)]; simp
          have hval : s.valAt (bitsOf key j) = (s.node n).value := by
            rw [Tree.valAt, ← hnopt]; rfl
          rw [hfuel]
          simp only [find6Loop, hmj, Bool.not_false, if_true]
          rw [lpmFrom_step (by omega), lpmFrom_gt (by omega)]
          cases hv : (s.node n).value with
          | none => simp [Option.orElse, hval, hv]
          | some v => simp [Option.orElse, hval, hv, rvalOf]
  | succ k ih =>
      intro j nopt best hk hj hnopt
      have hjlt : j < d := by omega
      cases hnop : nopt with
      | none =>
          rw [hnop] at hnopt
          rw [lpmFrom_none_of_nodeAt_none hnopt.symm]
          cases (len8 - j) <;> rfl
      | some n =>
          rw [hnop] at hnopt
          have hfuel : len8 - j = (len8 - (j + 1)) + 1 := by omega
          have hmj : bitAt mask j = true := by rw [hmask j (by omega)]; simp [hjlt]
          have hnext : childStep s n (bitAt key j) = s.nodeAt (bitsOf key (j + 1)) := by
            have hs := nodeAt_snoc s (bitsOf key j) (bitAt key j)
            rw [← bitsOf_succ, ← hnopt] at hs
            exact hs.symm
          have hval : s.valAt (bitsOf key j) = (s.node n).value := by
            rw [Tree.valAt, ← hnopt]; rfl
          rw [hfuel]
          simp only [find6Loop, hmj, Bool.not_true, Bool.false_eq_true, if_false,
            childStep_eq]
          rw [if_neg (by omega : ¬j + 1 = len8)]
          rw [ih (j + 1) (childStep s n (bitAt key j))
            (if (s.node n).value.isSome = true then (n, rvalOf (s.node n).value) else best)
            (by omega) (by omega) hnext]
          rw [lpmFrom_step (by omega : j ≤ d)]
          cases hl : lpmFrom s key d (j + 1) with
          | some v => simp [Option.orElse]
          | none =>
              cases hv : (s.node n).value with
              | none => simp [Option.orElse, hval, hv]
              | some v => simp [Option.orElse, hval, hv, rvalOf]

theorem find6Loop_val_eq {s : Tree α} {key mask : List Nat} {len8 : Nat}
    (hmask : ∀ p, p < len8 → bitAt mask p = true) (hpos : 0 < len8) :
    ∀ k j nopt best, k = len8 - 1 - j → j ≤ len8 - 1 → nopt = s.nodeAt (bitsOf key j) →
      (find6Loop s key mask len8 nopt j (len8 - j) best).2
        = match s.nodeAt (bitsOf key len8) with
          | some m => rvalOf (s.node m).value
          | none =>
              match lpmFrom s key (len8 - 1) j with
              | some v => RVal.val v
              | none => best.2 := by
  intro k
  induction k with
  | zero =>
      intro j nopt best hk hj hnopt
      have hjd : j = len8 - 1 := by omega
      cases hnop : nopt with
      | none =>
          rw [hnop] at hnopt
          rw [lpmFrom_none_of_nodeAt_none hnopt.symm,
            nodeAt_none_mono (bitsOf_mono key (by omega : j ≤ len8)) hnopt.symm]
          cases (len8 - j) <;> rfl
      | some n =>
          rw [hnop] at hnopt
          have hfuel : len8 - j = (len8 - j - 1) + 1 := by omega
          have hmj : bitAt mask j = true := hmask j (by omega)
          have hnext : childStep s n (bitAt key j) = s.nodeAt (bitsOf key (j + 1)) := by
            have hs := nodeAt_snoc s (bitsOf key j) (bitAt key j)
            rw [← bitsOf_succ, ← hnopt] at hs
            exact hs.symm
          have hval : s.valAt (bitsOf key j) = (s.node n).value := by
            rw [Tree.valAt, ← hnopt]; rfl
          have hj1 : j + 1 = len8 := by omega
          rw [hfuel]
          simp only [find6Loop, hmj, Bool.not_true, Bool.false_eq_true, if_false,
            childStep_eq]
          rw [if_pos hj1]
          rw [hj1] at hnext
          cases hnx : childStep s n (bitAt key j) with
          | some m =>
              rw [hnx] at hnext
              rw [← hnext]
          | none =>
              rw [hnx] at hnext
              rw [← hnext]
              rw [show len8 - 1 = j by omega]
              rw [lpmFrom_step (by omega), lpmFrom_gt (by omega)]
              cases hv : (s.node n).value with
              | none => simp [Option.orElse, hval, hv]
              | some v => simp [Option.orElse, hval, hv, rvalOf]
  | succ k ih =>
      intro j nopt best hk hj hnopt
      have hjlt : j < len8 - 1 := by omega
      cases hnop : nopt with
      | none =>
          rw [hnop] at hnopt
          rw [lpmFrom_none_of_nodeAt_none hnopt.symm,
            nodeAt_none_mono (bitsOf_mono key (by omega : j ≤ len8)) hnopt.symm]
          cases (len8 - j) <;> rfl
      | some n =>
          rw [hnop] at hnopt
          have hfuel : len8 - j = (len8 - (j + 1)) + 1 := by omega
          have hmj : bitAt mask j = true := hmask j (by omega)
          have hnext : childStep s n (bitAt key j) = s.nodeAt (bitsOf key (j + 1)) := by
            have hs := nodeAt_snoc s (bitsOf key j) (bitAt key j)
            rw [← bitsOf_succ, ← hnopt] at hs
            exact hs.symm
          have hval : s.valAt (bitsOf key j) = (s.node n).value := by
            rw [Tree.valAt, ← hnopt]; rfl
          rw [hfuel]
          simp only [find6Loop, hmj, Bool.not_true, Bool.false_eq_true, if_false,
            childStep_eq]
          rw [if_neg (by omega : ¬j + 1 = len8)]
          rw [ih (j + 1) (childStep s n (bitAt key j))
            (if (s.node n).value.isSome = true then (n, rvalOf (s.node n).value) else best)
            (by omega) (by omega) hnext]
          cases hfull : s.nodeAt (bitsOf key len8) with
          | some m => rfl
          | none =>
              rw [lpmFrom_step (by omega : j ≤ len8 - 1)]
              cases hl : lpmFrom s key (len8 - 1) (j + 1) with
              | some v => simp [Option.orElse]
              | none =>
                  cases hv : (s.node n).value with
                  | none => simp [Option.orElse, hval, hv]
                  | some v => simp [Option.orElse, hval, hv, rvalOf]

theorem find6_char {s : Tree α} {key : List Nat} (hk : key.length = 16) {d : Nat}
    (hd : d ≤ 128) :
    s.find6 key (getIPv6Mask d)
      = if d = 128 then
          match s.nodeAt (bitsOf key 128) with
          | some m => rvalOf (s.node m).value
          | none => rvalOf (lpmFrom s key 127 0)
        else rvalOf (lpmFrom s key d 0) := by
  have hlen : (getIPv6Mask d).length = 16 := length_getIPv6Mask d
  rw [Tree.find6, Tree.find6WithNode, if_neg (by omega), hk]
  have h816 : 8 * 16 = 128 := by norm_num
  rw [h816]
  by_cases h128 : d = 128
  · subst h128
    rw [if_pos rfl]
    have h := @find6Loop_val_eq α s key (getIPv6Mask 128) 128
      (fun p hp => by rw [bitAt_getIPv6Mask (by omega) hp]; simp [hp])
      (by omega) 127 0 (some s.root) (s.root, RVal.noval) (by omega) (by omega) rfl
    rw [show (128 : Nat) - 0 = 128 from rfl] at h
    rw [h]
    cases s.nodeAt (bitsOf key 128) with
    | some m => rfl
    | none =>
        show _ = rvalOf (lpmFrom s key 127 0)
        cases lpmFrom s key 127 0 <;> rfl
  · rw [if_neg h128]
    have hdlt : d < 128 := by omega
    have h := @find6Loop_val_lt α s key (getIPv6Mask d) d 128
      (fun p hp => bitAt_getIPv6Mask (by omega) hp)
      hdlt d 0 (some s.root) (s.root, RVal.noval) (by omega) (by omega) rfl
    rw [show (128 : Nat) - 0 = 128 from rfl] at h
    rw [h]
    cases lpmFrom s key d 0 <;> rfl

theorem mapMask4_cache : ∀ d4 < 33, mapMask4 (ipv4MaskCache d4) = getIPv6Mask (96 + d4) := by
  decide

theorem length_mapKey4 (k : Nat) : (mapKey4 k).length = 16 := rfl

theorem length_mapMask4 (m : Nat) : (mapMask4 m).length = 16 := rfl

theorem mapKey4_split (k : Nat) :
    mapKey4 k = [0, 0, 0, 0, 0, 0, 0, 0, 0, 0, 255, 255]
      ++ [(k >>> 24) % 256, (k >>> 16) % 256, (k >>> 8) % 256, k % 256] := rfl

theorem bitAt_v4KeyBytes : ∀ p < 96, bitAt v4KeyBytes p = decide (80 ≤ p) := by
  decide

theorem bitAt_mapKey4_low (k : Nat) {p : Nat} (hp : p < 96) :
    bitAt (mapKey4 k) p = decide (80 ≤ p) := by
  have hb : (mapKey4 k).getD (p / 8) 0 = v4KeyBytes.getD (p / 8) 0 := by
    have h12 : p / 8 < 12 := by omega
    rw [mapKey4_split, show v4KeyBytes
      = [0, 0, 0, 0, 0, 0, 0, 0, 0, 0, 255, 255] ++ [0, 0, 0, 0] from rfl]
    rw [List.getD_append _ _ _ _ (by simpa using h12),
      List.getD_append _ _ _ _ (by simpa using h12)]
  rw [bitAt, hb, ← bitAt]
  exact bitAt_v4KeyBytes p hp

theorem bitAt_mapKey4_high (k : Nat) {j : Nat} (hj : j < 32) :
    bitAt (mapKey4 k) (96 + j) = Nat.testBit k (31 - j) := by
  have hdiv : (96 + j) / 8 = 12 + j / 8 := by omega
  have hmod : (96 + j) % 8 = j % 8 := by omega
  rw [bitAt, hdiv, hmod, mapKey4_split,
    List.getD_append_right _ _ _ _ (by simp)]
  have hidx : 12 + j / 8 - List.length [0, 0, 0, 0, 0, 0, 0, 0, 0, 0, 255, 255]
      = j / 8 := by simp
  rw [hidx]
  have h4 : j / 8 = 0 ∨ j / 8 = 1 ∨ j / 8 = 2 ∨ j / 8 = 3 := by omega
  have h256 : (256 : Nat) = 2 ^ 8 := rfl
  rcases h4 with h | h | h | h <;>
      rw [h] <;>
      simp only [List.getD_cons_succ, List.getD_cons_zero] <;>
      rw [h256, Nat.testBit_mod_two_pow, decide_eq_true (by omega : 7 - j % 8 < 8),
        Bool.true_and]
  · rw [Nat.testBit_shiftRight]
    congr 1
    omega
  · rw [Nat.testBit_shiftRight]
    congr 1
    omega
  · rw [Nat.testBit_shiftRight]
    congr 1
    omega
  · congr 1
    omega

theorem bitsOf_mapKey4_96 (k : Nat) : bitsOf (mapKey4 k) 96 = spineBits := by
  have h1 : bitsOf (mapKey4 k) 96 = bitsOf v4KeyBytes 96 := by
    unfold bitsOf
    apply List.map_congr_left
    intro p hp
    have hp96 : p < 96 := by simpa using hp
    rw [bitAt_mapKey4_low k hp96, bitAt_v4KeyBytes p hp96]
  rw [h1]
  decide

theorem testBit_ipv4MaskCache :
    ∀ d4 < 33, ∀ j < 32, Nat.testBit (ipv4MaskCache d4) (31 - j) = decide (j < d4) := by
  decide

theorem find32Loop_char {s : Tree α} {ipv4 d4 : Nat} (hd4 : d4 ≤ 32) :
    ∀ k j nopt best, k = d4 - j → j ≤ d4 →
      nopt = s.nodeAt (bitsOf (mapKey4 ipv4) (96 + j)) →
      (find32Loop s ipv4 (ipv4MaskCache d4) nopt (32 - j) best).2
        = match lpmFrom s (mapKey4 ipv4) (96 + d4) (96 + j + 1) with
          | some v => RVal.val v
          | none => best.2 := by
  intro k
  induction k with
  | zero =>
      intro j nopt best hk hj hnopt
      have hjd : j = d4 := by omega
      subst hjd
      rw [lpmFrom_gt (by omega)]
      cases hnop : nopt with
      | none => cases (32 - j) <;> rfl
      | some n =>
          rcases Nat.lt_or_ge j 32 with hlt | hge
          · have hfuel : 32 - j = (31 - j) + 1 := by omega
            rw [hfuel, find32Loop]
            rw [show Nat.testBit (ipv4MaskCache j) (31 - j) = false by
              rw [testBit_ipv4MaskCache j (by omega) j hlt]; simp]
            simp
          · have hj32 : j = 32 := by omega
            subst hj32
            rfl
  | succ k ih =>
      intro j nopt best hk hj hnopt
      have hjlt : j < d4 := by omega
      have hj32 : j < 32 := by omega
      cases hnop : nopt with
      | none =>
          rw [hnop] at hnopt
          rw [lpmFrom_none_of_nodeAt_none
            (nodeAt_none_mono (bitsOf_mono _ (by omega)) hnopt.symm)]
          cases (32 - j) <;> rfl
      | some n =>
          rw [hnop] at hnopt
          have hfuel : 32 - j = (31 - j) + 1 := by omega
          rw [hfuel]
          simp only [find32Loop]
          rw [show Nat.testBit (ipv4MaskCache d4) (31 - j) = true by
            rw [testBit_ipv4MaskCache d4 (by omega) j hj32]; simp [hjlt]]
          simp only [Bool.not_true, Bool.false_eq_true, if_false]
          have hbit : Nat.testBit ipv4 (31 - j) = bitAt (mapKey4 ipv4) (96 + j) :=
            (bitAt_mapKey4_high ipv4 hj32).symm
          rw [hbit, childStep_eq]
          have hnext : childStep s n (bitAt (mapKey4 ipv4) (96 + j))
              = s.nodeAt (bitsOf (mapKey4 ipv4) (96 + j + 1)) := by
            have hs := nodeAt_snoc s (bitsOf (mapKey4 ipv4) (96 + j))
              (bitAt (mapKey4 ipv4) (96 + j))
            rw [← bitsOf_succ, ← hnopt] at hs
            exact hs.symm
          have h31 : 31 - j = 32 - (j + 1) := by omega
          rw [h31]
          rw [ih (j + 1) (childStep s n (bitAt (mapKey4 ipv4) (96 + j)))
            (match childStep s n (bitAt (mapKey4 ipv4) (96 + j)) with
             | some m =>
                 if (s.node m).value.isSome = true then (m, rvalOf (s.node m).value)
                 else best
             | none => best)
            (by omega) (by omega) hnext]
          simp only [← Nat.add_assoc]
          rw [lpmFrom_step (by omega : 96 + j + 1 ≤ 96 + d4)]
          have hval : s.valAt (bitsOf (mapKey4 ipv4) (96 + j + 1))
              = (childStep s n (bitAt (mapKey4 ipv4) (96 + j))).bind
                  fun m => (s.node m).value := by
            rw [Tree.valAt, ← hnext]
          cases hl : lpmFrom s (mapKey4 ipv4) (96 + d4) (96 + j + 1 + 1) with
          | some v => simp [Option.orElse]
          | none =>
              cases hnx : childStep s n (bitAt (mapKey4 ipv4) (96 + j)) with
              | none => simp [Option.orElse, hval, hnx]
              | some m =>
                  cases hv : (s.node m).value with
                  | none => simp [Option.orElse, hval, hnx, hv]
                  | some v => simp [Option.orElse, hval, hnx, hv, rvalOf]

theorem find32_char {s : Tree α} {r ipv4 d4 : Nat} (hr : s.rootV4 = some r)
    (hsp : s.nodeAt spineBits = some r) (hd4 : d4 ≤ 32) :
    s.find32 ipv4 (ipv4MaskCache d4)
      = rvalOf (lpmFrom s (mapKey4 ipv4) (96 + d4) 96) := by
  rw [Tree.find32, Tree.find32WithNode, hr]
  have hstart : (some r : Option Nat) = s.nodeAt (bitsOf (mapKey4 ipv4) (96 + 0)) := by
    rw [show (96 + 0 : Nat) = 96 from rfl, bitsOf_mapKey4_96, hsp]
  have h := @find32Loop_char α s ipv4 d4 hd4 d4 0 (some r)
    (r, rvalOf (s.node r).value) (by omega) (by omega) hstart
  rw [show (32 : Nat) - 0 = 32 from rfl] at h
  rw [h]
  rw [lpmFrom_step (by omega : 96 ≤ 96 + d4)]
  have hval : s.valAt (bitsOf (mapKey4 ipv4) 96) = (s.node r).value := by
    rw [Tree.valAt, bitsOf_mapKey4_96, hsp]
    rfl
  cases hl : lpmFrom s (mapKey4 ipv4) (96 + d4) (96 + 0 + 1) with
  | some v => simp [Option.orElse, rvalOf]
  | none =>
      cases hv : (s.node r).value with
      | none => simp [Option.orElse, hval, hv, rvalOf]
      | some v => simp [Option.orElse, hval, hv, rvalOf]

theorem bitAt_replicate_zero (p : Nat) : bitAt (List.replicate 16 0) p = false := by
  rw [bitAt, List.getD_eq_getElem?_getD, List.getElem?_replicate]
  split <;> simp

theorem insert6_zero_sets (s : Tree α) (key : List Nat) (v : Option α) (ow : Bool)
    (hk : key.length = 16) (hok : (s.node s.root).value = none ∨ ow = true) :
    s.insert6 key (List.replicate 16 0) v ow
      = (s.setNode s.root
          (fun nd => { nd with value := v, pfx := some (key, List.replicate 16 0) }),
         none) := by
  rw [Tree.insert6, if_neg (by simp [hk])]
  rw [@insertWalk_full α s key (List.replicate 16 0) 0 (8 * key.length)
    (fun p _ => by rw [bitAt_replicate_zero]; simp) (by omega) s.root rfl]
  rcases hok with hnone | how
  · simp [hnone]
  · simp [how]

theorem insert6_zero_busy (s : Tree α) (key : List Nat) (v : Option α)
    (hk : key.length = 16) (hbusy : (s.node s.root).value.isSome) :
    s.insert6 key (List.replicate 16 0) v false = (s, some Err.nodeBusy) := by
  rw [Tree.insert6, if_neg (by simp [hk])]
  rw [@insertWalk_full α s key (List.replicate 16 0) 0 (8 * key.length)
    (fun p _ => by rw [bitAt_replicate_zero]; simp) (by omega) s.root rfl]
  simp [hbusy]

theorem find6_zero (s : Tree α) (key : List Nat) (hk : key.length = 16) :
    s.find6 key (List.replicate 16 0) = rvalOf (s.node s.root).value := by
  have hmeq : (List.replicate 16 0 : List Nat) = getIPv6Mask 0 := by decide
  rw [hmeq, find6_char hk (by omega), if_neg (by omega)]
  rw [lpmFrom_step (by omega), lpmFrom_gt (by omega)]
  have hval : s.valAt (bitsOf key 0) = (s.node s.root).value := rfl
  cases hv : (s.node s.root).value <;> simp [Option.orElse, hval, hv, rvalOf]

theorem mapMask4_zero : mapMask4 0 = getIPv6Mask 96 := by decide

theorem insert4_zero_sets (s : Tree α) (k32 : Nat) (v : Option α) (ow : Bool)
    {rsp : Nat} (hsp : s.nodeAt spineBits = some rsp)
    (hok : (s.node rsp).value = none ∨ ow = true) :
    s.insert4 k32 0 v ow
      = (s.setNode rsp
          (fun nd => { nd with value := v, pfx := some (mapKey4 k32, mapMask4 0) }),
         none) := by
  rw [Tree.insert4, Tree.insert6, if_neg (by simp [length_mapKey4, length_mapMask4])]
  rw [@insertWalk_full α s (mapKey4 k32) (mapMask4 0) 96 (8 * (mapKey4 k32).length)
    (fun p hp => by
      rw [mapMask4_zero, bitAt_getIPv6Mask (by omega)
        (by simpa [length_mapKey4] using hp)]) (by simp [length_mapKey4])
    rsp (by rw [bitsOf_mapKey4_96]; exact hsp)]
  rcases hok with hnone | how
  · simp [hnone]
  · simp [how]

theorem find32_zero (s : Tree α) (k32 : Nat) {r : Nat} (hr : s.rootV4 = some r) :
    s.find32 k32 0 = rvalOf (s.node r).value := by
  rw [Tree.find32, Tree.find32WithNode, hr]
  have h1 : find32Loop s k32 0 (some r) 32 (r, rvalOf (s.node r).value)
      = (r, rvalOf (s.node r).value) := by
    rw [show (32 : Nat) = 31 + 1 from rfl]
    simp only [find32Loop, Nat.zero_testBit, Bool.not_false, if_true]
  show (find32Loop s k32 0 (some r) 32 (r, rvalOf (s.node r).value)).2
    = rvalOf (s.node r).value
  rw [h1]

/-- C8: on key and mask byte slices of unequal lengths, `insert6`,
`deleteIPv6` (point and whole-range), and `find6WithNode` all fail with the
BadIP error, leave the tree unchanged, and return no stored value (find
reports the error sentinel in its value slot and the root as its node). -/
theorem claim_C8 (s : Tree Nat) (key mask : List Nat) (v : Option Nat) (ow : Bool)
    (h : key.length ≠ mask.length) :
    s.insert6 key mask v ow = (s, some Err.badIP) ∧
    s.deleteIPv6 key mask false = (s, some DelErr.badIP) ∧
    s.deleteIPv6 key mask true = (s, some DelErr.badIP) ∧
    s.find6WithNode key mask = (s.root, RVal.badIP) := by
  refine ⟨?_, ?_, ?_, ?_⟩
  · rw [Tree.insert6, if_pos h]
  · rw [Tree.deleteIPv6, if_pos h]
  · rw [Tree.deleteIPv6, if_pos h]
  · rw [Tree.find6WithNode, if_pos h]

/-- C8 witness: a concrete mismatched call on a fresh tree. -/
theorem claim_C8_witness :
    (newTree : Tree Nat).insert6 [0] [] none false = (newTree, some Err.badIP) ∧
    (newTree : Tree Nat).deleteIPv6 [0] [] false = (newTree, some DelErr.badIP) ∧
    (newTree : Tree Nat).deleteIPv6 [0] [] true = (newTree, some DelErr.badIP) ∧
    (newTree : Tree Nat).find6WithNode [0] [] = ((newTree : Tree Nat).root, RVal.badIP) :=
  claim_C8 newTree [0] [] none false (by decide)

/-- C9 counterexample: on a fresh tree, an IPv4-entry insert with an
all-zero mask does not set the value on the root node: the root's value
stays empty and the value lands on the IPv4 shortcut node (handle 96)
instead. -/
theorem claim_C9_cex :
    ((((newTree : Tree Nat).insert4 0 0 (some 5) true).1.node
        ((newTree : Tree Nat).insert4 0 0 (some 5) true).1.root).value = none) ∧
    (((newTree : Tree Nat).insert4 0 0 (some 5) true).1.rootV4 = some 96) ∧
    ((((newTree : Tree Nat).insert4 0 0 (some 5) true).1.node 96).value = some 5) := by
  decide

/-- C9 (amended): an IPv6-entry insert with an all-zero mask targets the
root (setting the value when the root is unoccupied or overwrite is on,
NodeBusy otherwise), and an IPv6-entry find with an all-zero mask returns
the root's value; the IPv4 entry points target the IPv4 shortcut instead:
insert4 with a zero mask stores onto the node at the end of the
IPv4-mapped spine, and find32 with a zero mask returns the cached shortcut
node's value. -/
theorem claim_C9_amended (s : Tree Nat) (key : List Nat) (v : Option Nat) (ow : Bool)
    (r rsp k32 : Nat) (hk : key.length = 16) (hr : s.rootV4 = some r)
    (hsp : s.nodeAt spineBits = some rsp) :
    ((s.node s.root).value = none ∨ ow = true →
      s.insert6 key (List.replicate 16 0) v ow
        = (s.setNode s.root
            (fun nd => { nd with value := v, pfx := some (key, List.replicate 16 0) }),
           none)) ∧
    ((s.node s.root).value.isSome →
      s.insert6 key (List.replicate 16 0) v false = (s, some Err.nodeBusy)) ∧
    (s.find6 key (List.replicate 16 0) = rvalOf (s.node s.root).value) ∧
    ((s.node rsp).value = none ∨ ow = true →
      s.insert4 k32 0 v ow
        = (s.setNode rsp
            (fun nd => { nd with value := v, pfx := some (mapKey4 k32, mapMask4 0) }),
           none)) ∧
    (s.find32 k32 0 = rvalOf (s.node r).value) :=
  ⟨fun hok => insert6_zero_sets s key v ow hk hok,
   fun hbusy => insert6_zero_busy s key v hk hbusy,
   find6_zero s key hk,
   fun hok => insert4_zero_sets s k32 v ow hsp hok,
   find32_zero s k32 hr⟩

/-- C9 witness: the amended statement instantiated on a fresh tree. -/
theorem claim_C9_amended_witness :
    (((newTree : Tree Nat).node (newTree : Tree Nat).root).value = none ∨ true = true →
      (newTree : Tree Nat).insert6 (List.replicate 16 0) (List.replicate 16 0)
          (some 7) true
        = ((newTree : Tree Nat).setNode (newTree : Tree Nat).root
            (fun nd =>
              { nd with value := some 7,
                        pfx := some (List.replicate 16 0, List.replicate 16 0) }),
           none)) ∧
    (((newTree : Tree Nat).node (newTree : Tree Nat).root).value.isSome →
      (newTree : Tree Nat).insert6 (List.replicate 16 0) (List.replicate 16 0)
          (some 7) false = (newTree, some Err.nodeBusy)) ∧
    ((newTree : Tree Nat).find6 (List.replicate 16 0) (List.replicate 16 0)
      = rvalOf ((newTree : Tree Nat).node (newTree : Tree Nat).root).value) ∧
    (((newTree : Tree Nat).node 96).value = none ∨ true = true →
      (newTree : Tree Nat).insert4 0 0 (some 7) true
        = ((newTree : Tree Nat).setNode 96
            (fun nd => { nd with value := some 7, pfx := some (mapKey4 0, mapMask4 0) }),
           none)) ∧
    ((newTree : Tree Nat).find32 0 0
      = rvalOf ((newTree : Tree Nat).node 96).value) :=
  claim_C9_amended newTree (List.replicate 16 0) (some 7) true 96 96 0
    (by decide) (by decide) (by decide)

theorem reach_root (s : Tree α) : s.reach s.root :=
  ⟨[], rfl⟩

theorem reach_step {s : Tree α} {n m : Nat} {b : Bool} (hn : s.reach n)
    (hcs : childStep s n b = some m) : s.reach m := by
  obtain ⟨path, hpath⟩ := hn
  refine ⟨path ++ [b], ?_⟩
  rw [nodeAt_snoc, hpath]
  simpa using hcs

theorem deleteWalk_reach_stepped {s : Tree α} {key mask : List Nat} {t : Nat} :
    ∀ fuel p no, (∀ m, no = some m → ∃ n' b, s.reach n' ∧ childStep s n' b = some m) →
      deleteWalk s key mask no p fuel = some t →
      ∃ n' b, s.reach n' ∧ childStep s n' b = some t := by
  intro fuel
  induction fuel with
  | zero =>
      intro p no hno hw
      have h0 : deleteWalk s key mask no p 0 = no := by cases no <;> rfl
      rw [h0] at hw
      exact hno t hw
  | succ fuel ih =>
      intro p no hno hw
      cases no with
      | none =>
          have h0 : deleteWalk s key mask none p (fuel + 1) = none := rfl
          rw [h0] at hw
          cases hw
      | some m =>
          by_cases hm : bitAt mask p
          · have h1 : deleteWalk s key mask (some m) p (fuel + 1)
                = deleteWalk s key mask (childStep s m (bitAt key p)) (p + 1) fuel := by
              rw [deleteWalk, if_pos hm, childStep_eq]
            rw [h1] at hw
            refine ih (p + 1) _ ?_ hw
            intro m' hm'
            obtain ⟨n', b, hr, hcs⟩ := hno m rfl
            exact ⟨m, bitAt key p, reach_step hr hcs, hm'⟩
          · have h1 : deleteWalk s key mask (some m) p (fuel + 1) = some m := by
              rw [deleteWalk, if_neg hm]
            rw [h1] at hw
            injection hw with hmt
            subst hmt
            exact hno _ rfl

theorem trimLoop_no_panic (s : Tree α) (node : Nat) (fuel : Nat)
    (h : (s.node node).parent ≠ none) :
    (trimLoop s node fuel).2 ≠ some DelErr.panicNilParent := by
  induction fuel generalizing s node with
  | zero => simp [trimLoop]
  | succ fuel ih =>
      cases hp : (s.node node).parent with
      | none => exact absurd hp h
      | some par =>
          simp only [trimLoop, hp]
          split
          all_goals
          · split
            · simp
            · split
              · simp
              · next h2 => exact ih _ _ h2

/-- C10: the trim loop of delete dereferences the parent of the node being
detached before any root check; when the descent target was reached through
at least one masked bit (so it is a stepped-to, non-root node of a
well-formed tree) that parent is never nil and no delete call panics; but a
whole-range delete whose 16-byte mask is all zeros makes the root itself
the target and reaches the loop with a nil parent — on a fresh tree it hits
the nil dereference, modelled as `DelErr.panicNilParent`. -/
theorem claim_C10 :
    (∀ (s : Tree Nat) (key mask : List Nat) (wr : Bool), Wf s → bitAt mask 0 = true →
      (s.deleteIPv6 key mask wr).2 ≠ some DelErr.panicNilParent) ∧
    ((newTree : Tree Nat).deleteIPv6 (List.replicate 16 0) (List.replicate 16 0) true).2
      = some DelErr.panicNilParent := by
  constructor
  · intro s key mask wr hwf hbit
    rw [Tree.deleteIPv6]
    by_cases hlen : key.length ≠ mask.length
    · rw [if_pos hlen]
      simp
    · rw [if_neg hlen]
      have hlen8 : 8 * key.length = (8 * key.length - 1) + 1 := by
        rcases Nat.eq_zero_or_pos key.length with h0 | hpos
        · exfalso
          have : mask = [] := by
            have : mask.length = 0 := by omega
            simpa using this
          rw [this] at hbit
          simp [bitAt] at hbit
        · omega
      cases hw : deleteWalk s key mask (some s.root) 0 (8 * key.length) with
      | none => simp
      | some t =>
          have hstep : ∃ n' b, s.reach n' ∧ childStep s n' b = some t := by
            rw [hlen8] at hw
            have h1 : deleteWalk s key mask (some s.root) 0 ((8 * key.length - 1) + 1)
                = deleteWalk s key mask (childStep s s.root (bitAt key 0)) 1
                    (8 * key.length - 1) := by
              rw [deleteWalk, if_pos hbit, childStep_eq]
            rw [h1] at hw
            refine deleteWalk_reach_stepped _ 1 _ ?_ hw
            intro m hm
            exact ⟨s.root, bitAt key 0, reach_root s, hm⟩
          obtain ⟨n', b, hr, hcs⟩ := hstep
          have hpar : (s.node t).parent = some n' := hwf.parentOk hr hcs
          show (if (!wr && ((s.node t).right.isSome || (s.node t).left.isSome)) = true
                then if (s.node t).value.isSome = true
                     then (s.setNode t (fun nd => { nd with value := none }), none)
                     else (s, some DelErr.notFound)
                else trimLoop s t (s.nodes.length + 1)).2 ≠ some DelErr.panicNilParent
          by_cases hc : (!wr && ((s.node t).right.isSome || (s.node t).left.isSome)) = true
          · rw [if_pos hc]
            by_cases hv : (s.node t).value.isSome = true
            · rw [if_pos hv]
              simp
            · rw [if_neg hv]
              simp
          · rw [if_neg hc]
            exact trimLoop_no_panic s t _ (by rw [hpar]; simp)
  · decide

theorem newTree_eval :
    (newTree : Tree Nat)
      = Tree.mk [
        { left := some 1 },
        { left := some 2, parent := some 0 },
        { left := some 3, parent := some 1 },
        { left := some 4, parent := some 2 },
        { left := some 5, parent := some 3 },
        { left := some 6, parent := some 4 },
        { left := some 7, parent := some 5 },
        { left := some 8, parent := some 6 },
        { left := some 9, parent := some 7 },
        { left := some 10, parent := some 8 },
        { left := some 11, parent := some 9 },
        { left := some 12, parent := some 10 },
        { left := some 13, parent := some 11 },
        { left := some 14, parent := some 12 },
        { left := some 15, parent := some 13 },
        { left := some 16, parent := some 14 },
        { left := some 17, parent := some 15 },
        { left := some 18, parent := some 16 },
        { left := some 19, parent := some 17 },
        { left := some 20, parent := some 18 },
        { left := some 21, parent := some 19 },
        { left := some 22, parent := some 20 },
        { left := some 23, parent := some 21 },
        { left := some 24, parent := some 22 },
        { left := some 25, parent := some 23 },
        { left := some 26, parent := some 24 },
        { left := some 27, parent := some 25 },
        { left := some 28, parent := some 26 },
        { left := some 29, parent := some 27 },
        { left := some 30, parent := some 28 },
        { left := some 31, parent := some 29 },
        { left := some 32, parent := some 30 },
        { left := some 33, parent := some 31 },
        { left := some 34, parent := some 32 },
        { left := some 35, parent := some 33 },
        { left := some 36, parent := some 34 },
        { left := some 37, parent := some 35 },
        { left := some 38, parent := some 36 },
        { left := some 39, parent := some 37 },
        { left := some 40, parent := some 38 },
        { left := some 41, parent := some 39 },
        { left := some 42, parent := some 40 },
        { left := some 43, parent := some 41 },
        { left := some 44, parent := some 42 },
        { left := some 45, parent := some 43 },
        { left := some 46, parent := some 44 },
        { left := some 47, parent := some 45 },
        { left := some 48, parent := some 46 },
        { left := some 49, parent := some 47 },
        { left := some 50, parent := some 48 },
        { left := some 51, parent := some 49 },
        { left := some 52, parent := some 50 },
        { left := some 53, parent := some 51 },
        { left := some 54, parent := some 52 },
        { left := some 55, parent := some 53 },
        { left := some 56, parent := some 54 },
        { left := some 57, parent := some 55 },
        { left := some 58, parent := some 56 },
        { left := some 59, parent := some 57 },
        { left := some 60, parent := some 58 },
        { left := some 61, parent := some 59 },
        { left := some 62, parent := some 60 },
        { left := some 63, parent := some 61 },
        { left := some 64, parent := some 62 },
        { left := some 65, parent := some 63 },
        { left := some 66, parent := some 64 },
        { left := some 67, parent := some 65 },
        { left := some 68, parent := some 66 },
        { left := some 69, parent := some 67 },
        { left := some 70, parent := some 68 },
        { left := some 71, parent := some 69 },
        { left := some 72, parent := some 70 },
        { left := some 73, parent := some 71 },
        { left := some 74, parent := some 72 },
        { left := some 75, parent := some 73 },
        { left := some 76, parent := some 74 },
        { left := some 77, parent := some 75 },
        { left := some 78, parent := some 76 },
        { left := some 79, parent := some 77 },
        { left := some 80, parent := some 78 },
        { right := some 81, parent := some 79 },
        { right := some 82, parent := some 80 },
        { right := some 83, parent := some 81 },
        { right := some 84, parent := some 82 },
        { right := some 85, parent := some 83 },
        { right := some 86, parent := some 84 },
        { right := some 87, parent := some 85 },
        { right := some 88, parent := some 86 },
        { right := some 89, parent := some 87 },
        { right := some 90, parent := some 88 },
        { right := some 91, parent := some 89 },
        { right := some 92, parent := some 90 },
        { right := some 93, parent := some 91 },
        { right := some 94, parent := some 92 },
        { right := some 95, parent := some 93 },
        { right := some 96, parent := some 94 },
        { parent := some 95 }
        ] 0 (some 96) none := by
  decide
/-- C5: deleting the only IPv4 prefix of a fresh tree (here 128.0.0.0/1,
inserted then point-deleted) harvests the depth-96 IPv4 shortcut node
(handle 96) onto the free list and detaches the whole spine from the root,
while `rootV4` still caches the now-recycled handle — the shortcut node is
neither indestructible nor reachable afterwards. -/
theorem claim_C5_bug :
    ((((newTree : Tree Nat).insert4 0x80000000 (ipv4MaskCache 1) (some 1) false).1.deleteIPv4
        0x80000000 (ipv4MaskCache 1) false).2 = none) ∧
    ((((newTree : Tree Nat).insert4 0x80000000 (ipv4MaskCache 1) (some 1) false).1.deleteIPv4
        0x80000000 (ipv4MaskCache 1) false).1.rootV4 = some 96) ∧
    (((((newTree : Tree Nat).insert4 0x80000000 (ipv4MaskCache 1) (some 1) false).1.deleteIPv4
        0x80000000 (ipv4MaskCache 1) false).1.freeChain.getD []).contains 96) ∧
    (((((newTree : Tree Nat).insert4 0x80000000 (ipv4MaskCache 1) (some 1) false).1.deleteIPv4
        0x80000000 (ipv4MaskCache 1) false).1.node 0).left = none) ∧
    (((((newTree : Tree Nat).insert4 0x80000000 (ipv4MaskCache 1) (some 1) false).1.deleteIPv4
        0x80000000 (ipv4MaskCache 1) false).1.node 0).right = none) := by
  rw [newTree_eval]
  decide

/-- C7: the walker visits a node's own value before its left subtree
(pre-order), not between the subtrees (in-order): with values stored at
::/0 (the root) and 0::/1 (the root's left child), `WalkV6` reports the
root's pair first, although in-order traversal would report the left
child's pair first. -/
theorem claim_C7_bug :
    (((newTree : Tree Nat).insert6 (List.replicate 16 0) (List.replicate 16 0)
        (some 10) true).1.insert6
        (List.replicate 16 0) (getIPv6Mask 1) (some 11) true).1.walkV6
      = [([], 10), ([false], 11)] := by
  rw [newTree_eval]
  decide

/-- C6 counterexample: with a value stored at ::/0 (a prefix shallower
than depth 96), the IPv4 shortcut lookup returns no value and the shortcut
node, while the fallback IPv4-mapped descent from the true root returns the
stored value and the root — neither the value nor the matched node agree. -/
theorem claim_C6_cex :
    (((newTree : Tree Nat).insert6 (List.replicate 16 0) (List.replicate 16 0)
        (some 7) true).1.find32 0 0xffffffff = RVal.noval) ∧
    ((((newTree : Tree Nat).insert6 (List.replicate 16 0) (List.replicate 16 0)
        (some 7) true).1.find32Fallback 0 0xffffffff).2 = RVal.val 7) ∧
    ((((newTree : Tree Nat).insert6 (List.replicate 16 0) (List.replicate 16 0)
        (some 7) true).1.find32WithNode 0 0xffffffff).1 = 96) ∧
    ((((newTree : Tree Nat).insert6 (List.replicate 16 0) (List.replicate 16 0)
        (some 7) true).1.find32Fallback 0 0xffffffff).1 = 0) := by
  rw [newTree_eval]
  decide

/-- C1 counterexample: after the successful insert sequence storing 7 at
::/0, the stored map holds 7 at the empty path — the longest (indeed only)
stored prefix covering the IPv4 query 0.0.0.0/32 — yet `find32` returns no
value. -/
theorem claim_C1_cex :
    ((insertSeq (newTree : Tree Nat) [⟨List.replicate 16 0, 0, 7, true⟩]).map
        (fun s => s.find32 0 (ipv4MaskCache 32))) = some RVal.noval ∧
    storedOf [(⟨List.replicate 16 0, 0, 7, true⟩ : InsOp Nat)] (fun _ => none) [] = some 7 ∧
    lpmQ (storedOf [(⟨List.replicate 16 0, 0, 7, true⟩ : InsOp Nat)] (fun _ => none))
      (mapKey4 0) 128 = some 7 := by
  rw [newTree_eval]
  decide

/-- C3 counterexample: with 8000::/1 stored (value 1) and c000::/2 stored
below it (value 2, at handle 98), a whole-range delete of 8000::/1 detaches
the target (handle 97) and its subtree from the tree, but places only the
target on the free list: the free chain is exactly [97], and the descendant
98 — still holding value 2 — is not recycled. -/
theorem claim_C3_cex :
    ((((newTree : Tree Nat).insert6 (0x80 :: List.replicate 15 0) (getIPv6Mask 1)
          (some 1) false).1.insert6 (0xc0 :: List.replicate 15 0) (getIPv6Mask 2)
          (some 2) false).1.nodeAt [true, true] = some 98) ∧
    (((((newTree : Tree Nat).insert6 (0x80 :: List.replicate 15 0) (getIPv6Mask 1)
          (some 1) false).1.insert6 (0xc0 :: List.replicate 15 0) (getIPv6Mask 2)
          (some 2) false).1.deleteIPv6 (0x80 :: List.replicate 15 0) (getIPv6Mask 1)
          true).2 = none) ∧
    (((((newTree : Tree Nat).insert6 (0x80 :: List.replicate 15 0) (getIPv6Mask 1)
          (some 1) false).1.insert6 (0xc0 :: List.replicate 15 0) (getIPv6Mask 2)
          (some 2) false).1.deleteIPv6 (0x80 :: List.replicate 15 0) (getIPv6Mask 1)
          true).1.freeChain = some [97]) ∧
    ((((((newTree : Tree Nat).insert6 (0x80 :: List.replicate 15 0) (getIPv6Mask 1)
          (some 1) false).1.insert6 (0xc0 :: List.replicate 15 0) (getIPv6Mask 2)
          (some 2) false).1.deleteIPv6 (0x80 :: List.replicate 15 0) (getIPv6Mask 1)
          true).1.node 98).value = some 2) ∧
    (((((newTree : Tree Nat).insert6 (0x80 :: List.replicate 15 0) (getIPv6Mask 1)
          (some 1) false).1.insert6 (0xc0 :: List.replicate 15 0) (getIPv6Mask 2)
          (some 2) false).1.deleteIPv6 (0x80 :: List.replicate 15 0) (getIPv6Mask 1)
          true).1.nodeAt [true] = none) := by
  rw [newTree_eval]
  decide


end NRadix
